import Mathlib

/-!
Verification of the audio-preprocessing pipeline in `voice_w_cbuff.cpp`
(noise gate, high-pass filter, automatic gain control, circular buffer,
PortAudio callback orchestration).

Floating-point (`float`/`double`) arithmetic of the source is modelled by
exact rational arithmetic `ℚ`; 16-bit samples (`short`) by `ℤ`.  The C++
conversion `static_cast<short>` of a floating value truncates toward zero,
which is modelled by `truncToInt`.
-/

namespace Vosk

/-- `NOISE_GATE_THRESHOLD` from the configuration block (500). -/
def NOISE_GATE_THRESHOLD : ℤ := 500

/-- `AUDIO_BUFFER_SIZE` from the configuration block (8192). -/
def AUDIO_BUFFER_SIZE : ℕ := 8192

/-- `FRAMES_PER_BUFFER` from the configuration block (512). -/
def FRAMES_PER_BUFFER : ℕ := 512

/-- `AGC_TARGET_LEVEL` from the configuration block (8000). -/
def AGC_TARGET_LEVEL : ℚ := 8000

/-- `AGC_ADJUSTMENT_RATE` from the configuration block (0.1f). -/
def AGC_ADJUSTMENT_RATE : ℚ := 1/10

/-- Lower clamp bound of the AGC gain (`std::max(0.1f, ...)`). -/
def AGC_MIN_GAIN : ℚ := 1/10

/-- Upper clamp bound of the AGC gain (`std::min(10.0f, ...)`). -/
def AGC_MAX_GAIN : ℚ := 10

/-- The high-pass coefficient `alpha = 0.95f` in `applyHighPassFilter`. -/
def hpfAlpha : ℚ := 19/20

/-- C++ float-to-integer conversion: truncation toward zero. -/
def truncToInt (q : ℚ) : ℤ := if 0 ≤ q then ⌊q⌋ else ⌈q⌉

/-- The clamp `std::max(-32768.0f, std::min(32767.0f, q))` on floats. -/
def clampQ (q : ℚ) : ℚ := max (-32768) (min 32767 q)

/-- `static_cast<short>(std::max(-32768.0f, std::min(32767.0f, q)))`:
clamp in floating point, then truncate toward zero. -/
def toShort (q : ℚ) : ℤ := truncToInt (clampQ q)

/-- Clamp on integers, used to state the claim's `clamp(round(y), ...)`. -/
def clampZ (z : ℤ) : ℤ := max (-32768) (min 32767 z)

/-- `applyHighPassFilter` from `voice_w_cbuff.cpp` lines 92–104: walks the
block in order; for each sample `x` computes
`output = alpha * (prev_output + x - prev_input)`, sets
`prev_input := x`, `prev_output := output` (unclamped), and stores
`toShort output` back into the block.  Returns the rewritten block together
with the final `(prev_input, prev_output)` state. -/
def applyHighPassFilter : List ℤ → ℚ → ℚ → List ℤ × ℚ × ℚ
  | [], prevIn, prevOut => ([], prevIn, prevOut)
  | x :: xs, prevIn, prevOut =>
    let output := hpfAlpha * (prevOut + (x : ℚ) - prevIn)
    let rest := applyHighPassFilter xs (x : ℚ) output
    (toShort output :: rest.1, rest.2)

/-- The spec's recurrence for the unclamped outputs `y[n]`:
`y[n] = alpha * (prevOutput + x[n] - prevInput)` with the state threaded
strictly in sample order. -/
def hpfOutputs : List ℤ → ℚ → ℚ → List ℚ
  | [], _, _ => []
  | x :: xs, prevIn, prevOut =>
    let y := hpfAlpha * (prevOut + (x : ℚ) - prevIn)
    y :: hpfOutputs xs (x : ℚ) y

/-- The spec's final filter state: `(last input, last unclamped output)`,
or the initial state on an empty block. -/
def hpfFinalState : List ℤ → ℚ → ℚ → ℚ × ℚ
  | [], prevIn, prevOut => (prevIn, prevOut)
  | x :: xs, prevIn, prevOut =>
    hpfFinalState xs (x : ℚ) (hpfAlpha * (prevOut + (x : ℚ) - prevIn))

theorem toShort_of_unit (q : ℚ) (h0 : 0 ≤ q) (h1 : q < 1) : toShort q = 0 := by
  have hmin : min (32767 : ℚ) q = q :=
    min_eq_right (le_of_lt (lt_of_lt_of_le h1 (by norm_num)))
  have hmax : max (-32768 : ℚ) q = q :=
    max_eq_right (le_trans (by norm_num) h0)
  have hfl : ⌊q⌋ = 0 := by
    rw [Int.floor_eq_zero_iff]
    exact ⟨h0, h1⟩
  simp [toShort, clampQ, truncToInt, hmin, hmax, h0, hfl]

theorem applyHighPassFilter_eq (xs : List ℤ) (prevIn prevOut : ℚ) :
    applyHighPassFilter xs prevIn prevOut =
      ((hpfOutputs xs prevIn prevOut).map toShort,
        hpfFinalState xs prevIn prevOut) := by
  induction xs generalizing prevIn prevOut with
  | nil => rfl
  | cons x xs ih =>
    simp [applyHighPassFilter, hpfOutputs, hpfFinalState, ih]

/-- Claim C1: `applyHighPassFilter` processes the block strictly in order,
computing `y[n] = alpha * (prevOutput + x[n] - prevInput)` with
`alpha = 0.95`, updating the state to `(x[n], y[n])` with `y[n]` unclamped,
and storing for each sample the clamp of `y[n]` to `[-32768, 32767]`
truncated toward zero (amended: the C++ `static_cast<short>` truncates
toward zero; it does not round to the nearest integer). -/
theorem C1_hpf_contract (xs : List ℤ) (prevIn prevOut : ℚ) :
    applyHighPassFilter xs prevIn prevOut =
      ((hpfOutputs xs prevIn prevOut).map
          (fun y => truncToInt (clampQ y)),
        hpfFinalState xs prevIn prevOut) :=
  applyHighPassFilter_eq xs prevIn prevOut

/-- Claim C1, counterexample to the claim as stated: on the block `[1]`
with initial state `(0, 0)`, the unclamped output is `y = 0.95`, so the
claimed stored value `clamp(round(y), -32768, 32767)` is `1`, but the code
stores `0` (truncation toward zero). -/
theorem C1_round_counterexample :
    (applyHighPassFilter [1] 0 0).1 = [0] ∧
      hpfOutputs [1] 0 0 = [19/20] ∧
      clampZ (round ((19 : ℚ)/20)) = 1 ∧ (0 : ℤ) ≠ 1 := by
  have hy : hpfAlpha * (0 + ((1 : ℤ) : ℚ) - 0) = 19/20 := by
    norm_num [hpfAlpha]
  refine ⟨?_, ?_, ?_, by decide⟩
  · simp only [applyHighPassFilter, hy]
    rw [toShort_of_unit (19/20) (by norm_num) (by norm_num)]
  · simp only [hpfOutputs, hy]
  · norm_num [clampZ, round_eq]

/-- Sum of squared samples, as accumulated by `isAudioAboveNoiseGate`
(`rms += audio_data[i] * audio_data[i]`; exact in `double` for 16-bit
samples and realistic block lengths). -/
def sumSquares (xs : List ℤ) : ℤ := (xs.map (fun x => x * x)).sum

/-- `isAudioAboveNoiseGate` from lines 82–89: computes
`rms = sqrt(sum of squares / frame_count)` and returns `rms > 500`. -/
def isAudioAboveNoiseGate (xs : List ℤ) : Prop :=
  Real.sqrt ((sumSquares xs : ℝ) / (xs.length : ℝ)) > (NOISE_GATE_THRESHOLD : ℝ)

/-- Executable form of the noise gate used by the pipeline model:
`rms > 500` iff `500^2 * n < sum of squares` (both sides exact). -/
def isAudioAboveNoiseGateB (xs : List ℤ) : Bool :=
  decide (NOISE_GATE_THRESHOLD * NOISE_GATE_THRESHOLD * (xs.length : ℤ) < sumSquares xs)

theorem sumSquares_nonneg (xs : List ℤ) : 0 ≤ sumSquares xs := by
  apply List.sum_nonneg
  intro y hy
  rcases List.mem_map.mp hy with ⟨x, _, rfl⟩
  exact mul_self_nonneg x

theorem sumSquares_of_zero (xs : List ℤ) (h : ∀ x ∈ xs, x = 0) :
    sumSquares xs = 0 := by
  apply List.sum_eq_zero
  intro y hy
  rcases List.mem_map.mp hy with ⟨x, hx, rfl⟩
  rw [h x hx]
  ring

theorem gateB_eq_false_of_all_zero (xs : List ℤ) (hz : ∀ x ∈ xs, x = 0) :
    isAudioAboveNoiseGateB xs = false := by
  rw [isAudioAboveNoiseGateB, decide_eq_false_iff_not]
  rw [sumSquares_of_zero xs hz]
  intro hcon
  have : (0 : ℤ) ≤ NOISE_GATE_THRESHOLD * NOISE_GATE_THRESHOLD * (xs.length : ℤ) := by
    rw [NOISE_GATE_THRESHOLD]
    positivity
  omega

/-- Claim C5: for a block of positive length the noise gate holds exactly
when `sqrt(mean(sample^2)) > 500`; it is a pure function of the block, and
an all-zero block is always below the gate. -/
theorem C5_noise_gate (xs : List ℤ) (h : 0 < xs.length) :
    (isAudioAboveNoiseGateB xs = true ↔ isAudioAboveNoiseGate xs) ∧
    ((∀ x ∈ xs, x = 0) → isAudioAboveNoiseGateB xs = false) := by
  constructor
  · rw [isAudioAboveNoiseGateB, decide_eq_true_eq, isAudioAboveNoiseGate]
    have hn : (0 : ℝ) < (xs.length : ℝ) := by exact_mod_cast h
    rw [gt_iff_lt, Real.lt_sqrt (by norm_num [NOISE_GATE_THRESHOLD]),
      lt_div_iff₀ hn]
    constructor
    · intro hlt
      have : ((NOISE_GATE_THRESHOLD * NOISE_GATE_THRESHOLD * (xs.length : ℤ) : ℤ) : ℝ) <
          ((sumSquares xs : ℤ) : ℝ) := by exact_mod_cast hlt
      push_cast at this ⊢
      nlinarith [this]
    · intro hlt
      have : ((NOISE_GATE_THRESHOLD * NOISE_GATE_THRESHOLD * (xs.length : ℤ) : ℤ) : ℝ) <
          ((sumSquares xs : ℤ) : ℝ) := by
        push_cast
        nlinarith [hlt]
      exact_mod_cast this
  · exact gateB_eq_false_of_all_zero xs

/-- Witness for C5 at the one-sample block `[600]`. -/
theorem C5_noise_gate_witness :
    (isAudioAboveNoiseGateB [600] = true ↔ isAudioAboveNoiseGate [600]) ∧
    ((∀ x ∈ ([600] : List ℤ), x = 0) → isAudioAboveNoiseGateB [600] = false) :=
  C5_noise_gate [600] (by decide)

/-- The block level computed by `applyAGC` lines 109–113: mean absolute
amplitude `current_level = (sum of |sample|) / frame_count`. -/
def agcLevel (xs : List ℤ) : ℚ :=
  (((xs.map (fun x => |x|)).sum : ℤ) : ℚ) / (xs.length : ℚ)

/-- `applyAGC` from lines 107–131: if the block level is positive, move the
gain one smoothing step toward `targetLevel / level`, clamp it to
`[0.1, 10.0]`, store it, and rescale every sample by the new gain (clamped
to 16-bit range, truncated toward zero).  If the level is zero, neither the
gain nor the block changes. -/
def applyAGC (xs : List ℤ) (g : ℚ) : List ℤ × ℚ :=
  if 0 < agcLevel xs then
    let desired := AGC_TARGET_LEVEL / agcLevel xs
    let newGain := max AGC_MIN_GAIN
      (min AGC_MAX_GAIN (g + (desired - g) * AGC_ADJUSTMENT_RATE))
    (xs.map (fun x : ℤ => toShort ((x : ℚ) * newGain)), newGain)
  else (xs, g)

/-- The value stored back to `g_current_gain` is always first clamped to
`[0.1, 10.0]`, so one AGC step keeps the gain in range. -/
theorem applyAGC_gain_mem (xs : List ℤ) (g : ℚ)
    (h1 : AGC_MIN_GAIN ≤ g) (h2 : g ≤ AGC_MAX_GAIN) :
    AGC_MIN_GAIN ≤ (applyAGC xs g).2 ∧ (applyAGC xs g).2 ≤ AGC_MAX_GAIN := by
  rw [applyAGC]
  split
  · refine ⟨le_max_left _ _, ?_⟩
    exact max_le (by norm_num [AGC_MIN_GAIN, AGC_MAX_GAIN]) (min_le_left _ _)
  · exact ⟨h1, h2⟩

/-- Initial value of `g_current_gain` (line 40: `g_current_gain(1.0f)`). -/
def g_current_gain_init : ℚ := 1

/-- The gain after `applyAGC` has processed a sequence of blocks. -/
def agcGainRun (g : ℚ) (blocks : List (List ℤ)) : ℚ :=
  blocks.foldl (fun g b => (applyAGC b g).2) g

/-- Claim C2: `g_current_gain` starts at `1.0 ∈ [0.1, 10.0]`, and processing
any sequence of blocks from any in-range gain leaves it in `[0.1, 10.0]`:
every stored value is clamped first. -/
theorem C2_gain_invariant :
    (AGC_MIN_GAIN ≤ g_current_gain_init ∧ g_current_gain_init ≤ AGC_MAX_GAIN) ∧
    ∀ blocks g, AGC_MIN_GAIN ≤ g → g ≤ AGC_MAX_GAIN →
      AGC_MIN_GAIN ≤ agcGainRun g blocks ∧ agcGainRun g blocks ≤ AGC_MAX_GAIN := by
  refine ⟨⟨by norm_num [AGC_MIN_GAIN, g_current_gain_init],
    by norm_num [AGC_MAX_GAIN, g_current_gain_init]⟩, ?_⟩
  intro blocks
  induction blocks with
  | nil => intro g h1 h2; exact ⟨h1, h2⟩
  | cons b bs ih =>
    intro g h1 h2
    have hstep := applyAGC_gain_mem b g h1 h2
    exact ih _ hstep.1 hstep.2

/-- Witness for C2 at the single block `[1000]` from gain `1`. -/
theorem C2_gain_invariant_witness :
    AGC_MIN_GAIN ≤ agcGainRun 1 [[1000]] ∧ agcGainRun 1 [[1000]] ≤ AGC_MAX_GAIN :=
  C2_gain_invariant.2 [[1000]] 1 (by norm_num [AGC_MIN_GAIN])
    (by norm_num [AGC_MAX_GAIN])

/-- Claim C8: on a block whose mean absolute level is `0`, `applyAGC`
leaves both the gain and every sample unchanged (the division
`targetLevel / level` sits under the guard `level > 0`). -/
theorem C8_agc_zero_level (xs : List ℤ) (g : ℚ) (h : agcLevel xs = 0) :
    applyAGC xs g = (xs, g) := by
  rw [applyAGC, h]
  simp

/-- Witness for C8 at the all-zero block `[0]`. -/
theorem C8_agc_zero_level_witness :
    agcLevel [0] = 0 ∧ applyAGC [0] 1 = ([0], 1) :=
  ⟨by simp [agcLevel], C8_agc_zero_level [0] 1 (by simp [agcLevel])⟩

theorem hpfOutputs_replicate_const (m : ℕ) (c : ℤ) (po : ℚ) :
    hpfOutputs (List.replicate m c) (c : ℚ) po =
      (List.range m).map (fun i => hpfAlpha ^ (i + 1) * po) := by
  induction m generalizing po with
  | zero => rfl
  | succ m ih =>
    rw [List.replicate_succ, hpfOutputs]
    have hy : hpfAlpha * (po + (c : ℚ) - (c : ℚ)) = hpfAlpha * po := by ring
    rw [hy, ih (hpfAlpha * po), List.range_succ_eq_map, List.map_cons,
      List.map_map]
    congr 1
    · ring
    · apply List.map_congr_left
      intro a _
      simp only [Function.comp_apply, Nat.succ_eq_add_one, pow_succ]
      ring

theorem hpfOutputs_replicate_getD (n : ℕ) (c : ℤ) (prevIn prevOut : ℚ)
    (i : ℕ) (hi : i < n) :
    (hpfOutputs (List.replicate n c) prevIn prevOut).getD i 0 =
      hpfAlpha ^ i * (hpfAlpha * (prevOut + (c : ℚ) - prevIn)) := by
  cases n with
  | zero => omega
  | succ m =>
    rw [List.replicate_succ, hpfOutputs]
    cases i with
    | zero => simp
    | succ j =>
      have hj : j < m := by omega
      simp only [List.getD_cons_succ]
      rw [hpfOutputs_replicate_const m c _]
      have hlen : j < ((List.range m).map
          (fun i => hpfAlpha ^ (i + 1) * (hpfAlpha * (prevOut + (c : ℚ) - prevIn)))).length := by
        simpa using hj
      rw [List.getD_eq_getElem _ _ hlen]
      simp only [List.getElem_map, List.getElem_range]

/-- Claim C9: on a constant (DC) block, from any initial filter state, the
unclamped outputs satisfy `y[i+1] = alpha * y[i]` after the first sample,
with `0 < alpha = 0.95 < 1`, so `|y[i]| = alpha^i * |y[0]|` decays
geometrically toward zero. -/
theorem C9_dc_decay (n : ℕ) (c : ℤ) (prevIn prevOut : ℚ) :
    (0 < hpfAlpha ∧ hpfAlpha < 1) ∧
    (∀ i, i + 1 < n →
      (hpfOutputs (List.replicate n c) prevIn prevOut).getD (i + 1) 0 =
        hpfAlpha * (hpfOutputs (List.replicate n c) prevIn prevOut).getD i 0) ∧
    (∀ i, i < n →
      |(hpfOutputs (List.replicate n c) prevIn prevOut).getD i 0| =
        hpfAlpha ^ i * |(hpfOutputs (List.replicate n c) prevIn prevOut).getD 0 0|) := by
  refine ⟨⟨by norm_num [hpfAlpha], by norm_num [hpfAlpha]⟩, ?_, ?_⟩
  · intro i hi
    rw [hpfOutputs_replicate_getD n c prevIn prevOut (i + 1) hi,
      hpfOutputs_replicate_getD n c prevIn prevOut i (by omega)]
    ring
  · intro i hi
    rw [hpfOutputs_replicate_getD n c prevIn prevOut i hi,
      hpfOutputs_replicate_getD n c prevIn prevOut 0 (by omega)]
    rw [abs_mul, abs_pow]
    have : |hpfAlpha| = hpfAlpha := abs_of_pos (by norm_num [hpfAlpha])
    rw [this]
    simp

/-- Witness for C9: two-sample DC block `[5, 5]` from state `(0, 0)`. -/
theorem C9_dc_decay_witness :
    (hpfOutputs (List.replicate 2 5) 0 0).getD 1 0 =
      hpfAlpha * (hpfOutputs (List.replicate 2 5) 0 0).getD 0 0 :=
  (C9_dc_decay 2 5 0 0).2.1 0 (by omega)

/-- The `CircularBuffer` class, lines 45–77: fixed storage with `head`,
`tail`, `count` and `capacity`. -/
structure CircularBuffer where
  buffer : List ℤ
  head : ℕ
  tail : ℕ
  count : ℕ
  capacity : ℕ
deriving DecidableEq

/-- The representation invariant established by the constructor
(`buffer(size), head(0), tail(0), count(0), capacity(size)` with a
positive size) and preserved by `push`. -/
def CircularBuffer.Valid (b : CircularBuffer) : Prop :=
  b.buffer.length = b.capacity ∧ b.head < b.capacity ∧
    b.count ≤ b.capacity ∧ 0 < b.capacity

instance (b : CircularBuffer) : Decidable b.Valid := by
  unfold CircularBuffer.Valid
  infer_instance

/-- One iteration of the loop in `CircularBuffer::push` (lines 54–61):
write at `head`, advance `head` modulo capacity, grow `count` until the
buffer is full, afterwards advance `tail` instead. -/
def CircularBuffer.push1 (b : CircularBuffer) (x : ℤ) : CircularBuffer where
  buffer := b.buffer.set b.head x
  head := (b.head + 1) % b.capacity
  tail := if b.count < b.capacity then b.tail else (b.tail + 1) % b.capacity
  count := if b.count < b.capacity then b.count + 1 else b.count
  capacity := b.capacity

/-- `CircularBuffer::push(data, len)`: the loop over the block. -/
def CircularBuffer.push (b : CircularBuffer) (xs : List ℤ) : CircularBuffer :=
  xs.foldl CircularBuffer.push1 b

/-- The read start index of `CircularBuffer::getSmoothed` (line 70):
`(head >= len) ? head - len : capacity - (len - head)`. -/
def CircularBuffer.startIdx (b : CircularBuffer) (len : ℕ) : ℕ :=
  if len ≤ b.head then b.head - len else b.capacity - (len - b.head)

/-- The index read at loop iteration `i` of `getSmoothed`:
`(start + i) % capacity`. -/
def CircularBuffer.readIdx (b : CircularBuffer) (len i : ℕ) : ℕ :=
  (b.startIdx len + i) % b.capacity

/-- `CircularBuffer::getSmoothed(len)` (lines 65–76): empty result when
`count < len`, otherwise the `len` entries starting at `startIdx`. -/
def CircularBuffer.getSmoothed (b : CircularBuffer) (len : ℕ) : List ℤ :=
  if b.count < len then []
  else (List.range len).map (fun i => b.buffer.getD (b.readIdx len i) 0)

theorem CircularBuffer.push1_valid (b : CircularBuffer) (x : ℤ)
    (hb : b.Valid) : (b.push1 x).Valid := by
  obtain ⟨hlen, hhead, hcount, hcap⟩ := hb
  refine ⟨?_, ?_, ?_, hcap⟩
  · simpa [CircularBuffer.push1] using hlen
  · exact Nat.mod_lt _ hcap
  · simp only [CircularBuffer.push1]
    split <;> omega

theorem CircularBuffer.push1_capacity (b : CircularBuffer) (x : ℤ) :
    (b.push1 x).capacity = b.capacity := rfl

theorem CircularBuffer.push1_count (b : CircularBuffer) (x : ℤ)
    (hb : b.count ≤ b.capacity) :
    (b.push1 x).count = min (b.count + 1) b.capacity := by
  by_cases h : b.count < b.capacity
  · simp only [CircularBuffer.push1, if_pos h]
    rw [min_eq_left (by omega)]
  · simp only [CircularBuffer.push1, if_neg h]
    omega

theorem CircularBuffer.push_valid (b : CircularBuffer) (xs : List ℤ)
    (hb : b.Valid) : (b.push xs).Valid := by
  induction xs generalizing b with
  | nil => exact hb
  | cons x xs ih => exact ih _ (b.push1_valid x hb)

theorem CircularBuffer.push_capacity (b : CircularBuffer) (xs : List ℤ) :
    (b.push xs).capacity = b.capacity := by
  induction xs generalizing b with
  | nil => rfl
  | cons x xs ih => rw [CircularBuffer.push, List.foldl_cons]; exact ih _

theorem CircularBuffer.push_count (b : CircularBuffer) (xs : List ℤ)
    (hb : b.count ≤ b.capacity) :
    (b.push xs).count = min (b.count + xs.length) b.capacity := by
  induction xs generalizing b with
  | nil => simp [CircularBuffer.push]; omega
  | cons x xs ih =>
    rw [CircularBuffer.push, List.foldl_cons]
    have h1 := b.push1_count x hb
    have h2 : (b.push1 x).count ≤ (b.push1 x).capacity := by
      rw [h1, CircularBuffer.push1_capacity]; omega
    rw [← CircularBuffer.push] at *
    rw [ih _ h2, h1, CircularBuffer.push1_capacity, List.length_cons]
    omega

theorem CircularBuffer.startIdx_eq (b : CircularBuffer) (len : ℕ)
    (hb : b.Valid) (hlen : len ≤ b.capacity) :
    b.startIdx len = (b.head + b.capacity - len) % b.capacity := by
  obtain ⟨hblen, hhead, hcount, hcap⟩ := hb
  rw [CircularBuffer.startIdx]
  split
  · have h1 : b.head + b.capacity - len = (b.head - len) + b.capacity := by
      omega
    rw [h1, Nat.add_mod_right, Nat.mod_eq_of_lt (by omega)]
  · have h1 : b.head + b.capacity - len = b.capacity - (len - b.head) := by
      omega
    rw [h1, Nat.mod_eq_of_lt (by omega)]

theorem CircularBuffer.readIdx_eq (b : CircularBuffer) (len i : ℕ)
    (hb : b.Valid) (hlen : len ≤ b.capacity) :
    b.readIdx len i = (b.head + b.capacity - len + i) % b.capacity := by
  rw [CircularBuffer.readIdx, CircularBuffer.startIdx_eq b len hb hlen,
    Nat.mod_add_mod]

theorem mod_shift_ne (head cap d : ℕ) (hh : head < cap) (hd1 : 1 ≤ d)
    (hd2 : d < cap) : (head + cap - d) % cap ≠ head := by
  rcases le_or_lt d head with hc | hc
  · have h1 : head + cap - d = (head - d) + cap := by omega
    rw [h1, Nat.add_mod_right, Nat.mod_eq_of_lt (by omega)]
    omega
  · rw [Nat.mod_eq_of_lt (by omega)]
    omega

theorem CircularBuffer.getSmoothed_zero (b : CircularBuffer) :
    b.getSmoothed 0 = [] := by
  simp [CircularBuffer.getSmoothed]

theorem CircularBuffer.getSmoothed_push1 (b : CircularBuffer) (x : ℤ)
    (m : ℕ) (hb : b.Valid) (hcap : m + 1 ≤ b.capacity) (hcount : m ≤ b.count) :
    (b.push1 x).getSmoothed (m + 1) = b.getSmoothed m ++ [x] := by
  obtain ⟨hblen, hhead, hcountcap, hcappos⟩ := hb
  have hb' : b.Valid := ⟨hblen, hhead, hcountcap, hcappos⟩
  have hv1 : (b.push1 x).Valid := b.push1_valid x hb'
  have hc1 : ¬ (b.push1 x).count < m + 1 := by
    rw [b.push1_count x hcountcap]; omega
  have hc2 : ¬ b.count < m := by omega
  rw [CircularBuffer.getSmoothed, if_neg hc1, CircularBuffer.getSmoothed,
    if_neg hc2, List.range_succ, List.map_append]
  congr 1
  · apply List.map_congr_left
    intro i hi
    have him : i < m := List.mem_range.mp hi
    have hidx1 : (b.push1 x).readIdx (m + 1) i =
        (b.head + b.capacity - (m - i)) % b.capacity := by
      rw [CircularBuffer.readIdx_eq _ _ _ hv1
        (by rw [CircularBuffer.push1_capacity]; omega)]
      show ((b.head + 1) % b.capacity + (b.push1 x).capacity - (m + 1) + i) %
          b.capacity = _
      rw [CircularBuffer.push1_capacity]
      have h1 : (b.head + 1) % b.capacity + b.capacity - (m + 1) + i =
          (b.head + 1) % b.capacity + (b.capacity - (m + 1) + i) := by
        omega
      rw [h1, Nat.mod_add_mod]
      congr 1
      omega
    have hidx2 : b.readIdx m i = (b.head + b.capacity - (m - i)) % b.capacity := by
      rw [CircularBuffer.readIdx_eq _ _ _ hb' (by omega)]
      congr 1
      omega
    rw [hidx1, hidx2]
    have hne : (b.head + b.capacity - (m - i)) % b.capacity ≠ b.head :=
      mod_shift_ne b.head b.capacity (m - i) hhead (by omega) (by omega)
    have hlt : (b.head + b.capacity - (m - i)) % b.capacity < b.buffer.length := by
      rw [hblen]; exact Nat.mod_lt _ hcappos
    have hlt' : (b.head + b.capacity - (m - i)) % b.capacity <
        ((b.push1 x).buffer).length := by
      show _ < (b.buffer.set b.head x).length
      rw [List.length_set]; exact hlt
    rw [List.getD_eq_getElem _ _ hlt', List.getD_eq_getElem _ _ hlt]
    show (b.buffer.set b.head x)[_] = _
    rw [List.getElem_set_ne (Ne.symm hne)]
  · simp only [List.map_cons, List.map_nil]
    have hidx : (b.push1 x).readIdx (m + 1) m = b.head := by
      rw [CircularBuffer.readIdx_eq _ _ _ hv1
        (by rw [CircularBuffer.push1_capacity]; omega)]
      show ((b.head + 1) % b.capacity + (b.push1 x).capacity - (m + 1) + m) %
          b.capacity = _
      rw [CircularBuffer.push1_capacity]
      have h1 : (b.head + 1) % b.capacity + b.capacity - (m + 1) + m =
          (b.head + 1) % b.capacity + (b.capacity - 1) := by
        omega
      rw [h1, Nat.mod_add_mod]
      have h2 : b.head + 1 + (b.capacity - 1) = b.head + b.capacity := by
        omega
      rw [h2, Nat.add_mod_right, Nat.mod_eq_of_lt hhead]
    rw [hidx]
    have hlt : b.head < ((b.push1 x).buffer).length := by
      show _ < (b.buffer.set b.head x).length
      rw [List.length_set, hblen]
      exact hhead
    have hval : ((b.push1 x).buffer).getD b.head 0 = x := by
      rw [List.getD_eq_getElem _ _ hlt]
      show (b.buffer.set b.head x)[b.head] = x
      rw [List.getElem_set_self]
    rw [hval]

/-- After pushing `ys`, retrieving any `n ≤ min(|ys|, capacity)` most
recent entries yields the last `n` elements of `ys`, in order, regardless
of the prior contents: overflow deterministically overwrites the oldest. -/
theorem CircularBuffer.getSmoothed_push (b : CircularBuffer) (ys : List ℤ)
    (n : ℕ) (hb : b.Valid) (hn : n ≤ ys.length) (hcap : n ≤ b.capacity) :
    (b.push ys).getSmoothed n = ys.drop (ys.length - n) := by
  induction ys using List.reverseRecOn generalizing n with
  | nil =>
    have hn0 : n = 0 := by simpa using hn
    subst hn0
    rw [CircularBuffer.push, List.foldl_nil, CircularBuffer.getSmoothed_zero]
    rfl
  | append_singleton ys y ih =>
    have hpush : b.push (ys ++ [y]) = (b.push ys).push1 y := by
      rw [CircularBuffer.push, List.foldl_append, List.foldl_cons,
        List.foldl_nil, CircularBuffer.push]
    cases n with
    | zero =>
      rw [CircularBuffer.getSmoothed_zero]
      rw [Nat.sub_zero, List.drop_length]
    | succ m =>
      have hlen : (ys ++ [y]).length = ys.length + 1 := by simp
      have hvb : (b.push ys).Valid := b.push_valid ys hb
      have hcapb : (b.push ys).capacity = b.capacity := b.push_capacity ys
      have hcount : m ≤ (b.push ys).count := by
        rw [b.push_count ys hb.2.2.1]
        rw [hlen] at hn
        omega
      rw [hpush, CircularBuffer.getSmoothed_push1 _ y m hvb
        (by rw [hcapb]; omega) hcount]
      rw [hlen] at hn
      rw [ih m (by omega) (by omega)]
      rw [hlen, List.drop_append_eq_append_drop]
      congr 1
      · congr 1
        omega
      · have : ys.length + 1 - (m + 1) - ys.length = 0 := by omega
        rw [this, List.drop_zero]

/-- Claim C3: pushing a block `ys` and retrieving `n ≤ min(|ys|, capacity)`
entries returns exactly the last `n` samples pushed, in chronological
order, for every prior buffer state.  With `n = |ys| ≤ capacity` the result
is the literal block just pushed (the smoothing stage is a no-op in
effect), and with `|ys| > capacity` the oldest samples are
deterministically overwritten: only the last `capacity` remain
retrievable. -/
theorem C3_push_retrieve (b : CircularBuffer) (ys : List ℤ) (n : ℕ)
    (hb : b.Valid) (hn : n ≤ ys.length) (hcap : n ≤ b.capacity) :
    (b.push ys).getSmoothed n = ys.drop (ys.length - n) :=
  CircularBuffer.getSmoothed_push b ys n hb hn hcap

/-- Witness for C3: a capacity-4 buffer that already holds two samples,
pushed with the block `[1, 2, 3]` and asked for the last 3. -/
theorem C3_push_retrieve_witness :
    ((CircularBuffer.mk [7, 8, 0, 0] 2 0 2 4).push [1, 2, 3]).getSmoothed 3 =
      List.drop 0 [1, 2, 3] :=
  C3_push_retrieve (CircularBuffer.mk [7, 8, 0, 0] 2 0 2 4) [1, 2, 3] 3
    (by decide) (by decide) (by decide)

/-- Claim C7: when more samples are requested than are present
(`count < n`), `getSmoothed` returns the empty list, and whenever the read
loop does run (`n ≤ count`) every index it reads is inside the storage. -/
theorem C7_insufficient_history (b : CircularBuffer) (n : ℕ) (hb : b.Valid) :
    (b.count < n → b.getSmoothed n = []) ∧
    (n ≤ b.count → ∀ i, i < n → b.readIdx n i < b.buffer.length) := by
  constructor
  · intro h
    rw [CircularBuffer.getSmoothed, if_pos h]
  · intro _ i _
    rw [hb.1, CircularBuffer.readIdx]
    exact Nat.mod_lt _ hb.2.2.2

/-- Witness for C7: a capacity-4 buffer holding 2 samples, asked for 3. -/
theorem C7_insufficient_history_witness :
    ((CircularBuffer.mk [7, 8, 0, 0] 2 0 2 4).count < 3 →
      (CircularBuffer.mk [7, 8, 0, 0] 2 0 2 4).getSmoothed 3 = []) ∧
    (3 ≤ (CircularBuffer.mk [7, 8, 0, 0] 2 0 2 4).count →
      ∀ i, i < 3 →
        (CircularBuffer.mk [7, 8, 0, 0] 2 0 2 4).readIdx 3 i <
          (CircularBuffer.mk [7, 8, 0, 0] 2 0 2 4).buffer.length) :=
  C7_insufficient_history (CircularBuffer.mk [7, 8, 0, 0] 2 0 2 4) 3 (by decide)

/-- The substring searched for at line 190 to suppress empty partial
results. -/
def emptyInterimMarker : String := "\"partial\" : \"\""

/-- The recognizer's response to one submitted block: status `0` with its
JSON text (partial-result path), status `> 0` with its JSON text
(final-result path), or status `< 0` (ignored). -/
inductive RecOut where
  | interim (json : String)
  | finalRes (json : String)
  | err
deriving DecidableEq

/-- Persistent state touched by the callback: the static filter state of
`preprocessAudio`, `g_current_gain`, `g_audio_buffer` and
`g_last_partial_result_json`. -/
structure PipelineState where
  prevInput : ℚ
  prevOutput : ℚ
  gain : ℚ
  buf : CircularBuffer
  lastResultJson : String
deriving DecidableEq

/-- The update of `g_last_partial_result_json` in lines 184–209: a partial
result replaces the cache when it is non-empty, carries no empty-partial
marker, differs from the cache and is longer than 20 characters; a final
result always clears the cache; an error status leaves it alone. -/
def updateCache (cache : String) (r : RecOut) : String :=
  match r with
  | .interim j =>
    if j ≠ "" ∧ (j.splitOn emptyInterimMarker).length = 1 ∧
        j ≠ cache ∧ 20 < j.length
    then j else cache
  | .finalRes _ => ""
  | .err => cache

/-- One invocation of `paCallback` (lines 145–212) on a non-null input
block, with the recognizer's response supplied as an oracle: gate, then
high-pass filter, then AGC, then push into the circular buffer, then
retrieve the smoothed block (falling back to the processed block when the
retrieval is empty) and submit it.  Returns the new persistent state and
the submitted block, or `none` when the gate drops the block. -/
def stepCallback (s : PipelineState) (input : List ℤ) (r : RecOut) :
    PipelineState × Option (List ℤ) :=
  if isAudioAboveNoiseGateB input then
    let f := applyHighPassFilter input s.prevInput s.prevOutput
    let a := applyAGC f.1 s.gain
    let buf' := s.buf.push a.1
    let sm := buf'.getSmoothed input.length
    let outBlock := if sm.isEmpty then a.1 else sm
    ({ prevInput := f.2.1, prevOutput := f.2.2, gain := a.2, buf := buf',
       lastResultJson := updateCache s.lastResultJson r }, some outBlock)
  else (s, none)

/-- A sequence of callback invocations; collects the submitted blocks. -/
def runCallbacks : PipelineState → List (List ℤ × RecOut) →
    PipelineState × List (List ℤ)
  | s, [] => (s, [])
  | s, (xs, r) :: rest =>
    let st := stepCallback s xs r
    let next := runCallbacks st.1 rest
    (next.1, (match st.2 with | some blk => [blk] | none => []) ++ next.2)

/-- Claim C6: a block below the noise gate is dropped before any further
processing: the callback returns with the filter state, gain, ring buffer
and partial-result cache untouched and nothing submitted; in particular,
three consecutive zero-energy blocks produce zero submissions and no state
change. -/
theorem C6_gate_short_circuit (xs : List ℤ)
    (h : isAudioAboveNoiseGateB xs = false) :
    (∀ s r, stepCallback s xs r = (s, none)) ∧
    (∀ s r1 r2 r3 n,
      runCallbacks s [(List.replicate n 0, r1), (List.replicate n 0, r2),
        (List.replicate n 0, r3)] = (s, [])) := by
  have hdrop : ∀ (ys : List ℤ), isAudioAboveNoiseGateB ys = false →
      ∀ s r, stepCallback s ys r = (s, none) := by
    intro ys hy s r
    rw [stepCallback, hy]
    rfl
  have hzero : ∀ n : ℕ, isAudioAboveNoiseGateB (List.replicate n (0 : ℤ)) = false := by
    intro n
    exact gateB_eq_false_of_all_zero _ (fun x hx => List.eq_of_mem_replicate hx)
  refine ⟨hdrop xs h, ?_⟩
  intro s r1 r2 r3 n
  rw [runCallbacks, hdrop _ (hzero n) s r1]
  rw [runCallbacks, hdrop _ (hzero n) s r2]
  rw [runCallbacks, hdrop _ (hzero n) s r3]
  rfl

/-- Witness for C6: the one-sample zero block `[0]` on a concrete state. -/
theorem C6_gate_short_circuit_witness :
    stepCallback
      (PipelineState.mk 0 0 1 (CircularBuffer.mk [0, 0, 0, 0] 0 0 0 4) "")
      [0] RecOut.err =
      (PipelineState.mk 0 0 1 (CircularBuffer.mk [0, 0, 0, 0] 0 0 0 4) "",
        none) :=
  (C6_gate_short_circuit [0] (by decide)).1
    (PipelineState.mk 0 0 1 (CircularBuffer.mk [0, 0, 0, 0] 0 0 0 4) "")
    RecOut.err

theorem applyHighPassFilter_length (xs : List ℤ) (prevIn prevOut : ℚ) :
    (applyHighPassFilter xs prevIn prevOut).1.length = xs.length := by
  induction xs generalizing prevIn prevOut with
  | nil => rfl
  | cons x xs ih =>
    rw [applyHighPassFilter]
    simpa using ih (x : ℚ) _

theorem applyAGC_length (xs : List ℤ) (g : ℚ) :
    (applyAGC xs g).1.length = xs.length := by
  rw [applyAGC]
  split
  · exact List.length_map _ _
  · rfl

/-- Claim C10: on a gate-passing block of length `FRAMES_PER_BUFFER = 512`
with the ring buffer at its configured capacity
`AUDIO_BUFFER_SIZE = 8192`, the block is pushed before retrieval, so the
occupied count is at least 512 at retrieval time: `getSmoothed` returns a
non-empty result (the processed block itself) and the submitted block is
that retrieval — the fallback substituting the unsmoothed block is
unreachable on this path. -/
theorem C10_smoothing_fallback_unreachable (s : PipelineState) (xs : List ℤ)
    (r : RecOut) (hb : s.buf.Valid) (hcap : s.buf.capacity = AUDIO_BUFFER_SIZE)
    (hlen : xs.length = FRAMES_PER_BUFFER)
    (hg : isAudioAboveNoiseGateB xs = true) :
    (s.buf.push
        (applyAGC (applyHighPassFilter xs s.prevInput s.prevOutput).1
          s.gain).1).getSmoothed xs.length ≠ [] ∧
    (stepCallback s xs r).2 =
      some ((s.buf.push
        (applyAGC (applyHighPassFilter xs s.prevInput s.prevOutput).1
          s.gain).1).getSmoothed xs.length) := by
  have hplen :
      (applyAGC (applyHighPassFilter xs s.prevInput s.prevOutput).1
        s.gain).1.length = xs.length := by
    rw [applyAGC_length, applyHighPassFilter_length]
  have hsm : (s.buf.push
      (applyAGC (applyHighPassFilter xs s.prevInput s.prevOutput).1
        s.gain).1).getSmoothed xs.length =
      (applyAGC (applyHighPassFilter xs s.prevInput s.prevOutput).1
        s.gain).1 := by
    rw [CircularBuffer.getSmoothed_push _ _ _ hb (le_of_eq hplen.symm)
      (by rw [hcap, hlen, AUDIO_BUFFER_SIZE, FRAMES_PER_BUFFER]; omega)]
    rw [hplen, Nat.sub_self, List.drop_zero]
  have hne : (applyAGC (applyHighPassFilter xs s.prevInput s.prevOutput).1
      s.gain).1 ≠ [] := by
    intro hc
    rw [hc] at hplen
    rw [hlen, FRAMES_PER_BUFFER] at hplen
    simp at hplen
  refine ⟨by rw [hsm]; exact hne, ?_⟩
  rw [stepCallback, hg]
  simp only [if_true]
  rw [hsm]
  simp only [List.isEmpty_eq_false.mpr hne, Bool.false_eq_true, if_false]

theorem sumSquares_replicate (n : ℕ) (c : ℤ) :
    sumSquares (List.replicate n c) = (n : ℤ) * (c * c) := by
  rw [sumSquares, List.map_replicate, List.sum_replicate]
  simp [nsmul_eq_mul]

/-- Witness for C10: a constant block of 512 samples of amplitude 1000 on
the freshly constructed 8192-capacity buffer. -/
theorem C10_smoothing_fallback_unreachable_witness :
    ((PipelineState.mk 0 0 1
        (CircularBuffer.mk (List.replicate 8192 0) 0 0 0 8192) "").buf.push
      (applyAGC (applyHighPassFilter (List.replicate 512 1000)
        (PipelineState.mk 0 0 1
          (CircularBuffer.mk (List.replicate 8192 0) 0 0 0 8192) "").prevInput
        (PipelineState.mk 0 0 1
          (CircularBuffer.mk (List.replicate 8192 0) 0 0 0 8192) "").prevOutput).1
        (PipelineState.mk 0 0 1
          (CircularBuffer.mk (List.replicate 8192 0) 0 0 0 8192) "").gain).1).getSmoothed
      (List.replicate (512 : ℕ) (1000 : ℤ)).length ≠ [] ∧
    (stepCallback (PipelineState.mk 0 0 1
        (CircularBuffer.mk (List.replicate 8192 0) 0 0 0 8192) "")
      (List.replicate 512 1000) RecOut.err).2 =
      some (((PipelineState.mk 0 0 1
        (CircularBuffer.mk (List.replicate 8192 0) 0 0 0 8192) "").buf.push
        (applyAGC (applyHighPassFilter (List.replicate 512 1000)
          (PipelineState.mk 0 0 1
            (CircularBuffer.mk (List.replicate 8192 0) 0 0 0 8192) "").prevInput
          (PipelineState.mk 0 0 1
            (CircularBuffer.mk (List.replicate 8192 0) 0 0 0 8192) "").prevOutput).1
          (PipelineState.mk 0 0 1
            (CircularBuffer.mk (List.replicate 8192 0) 0 0 0 8192) "").gain).1).getSmoothed
        (List.replicate (512 : ℕ) (1000 : ℤ)).length) :=
  C10_smoothing_fallback_unreachable
    (PipelineState.mk 0 0 1
      (CircularBuffer.mk (List.replicate 8192 0) 0 0 0 8192) "")
    (List.replicate 512 1000) RecOut.err
    (by
      refine ⟨?_, ?_, ?_, ?_⟩
      · show (List.replicate 8192 (0 : ℤ)).length = 8192
        rw [List.length_replicate]
      · show (0 : ℕ) < 8192
        norm_num
      · show (0 : ℕ) ≤ 8192
        norm_num
      · show (0 : ℕ) < 8192
        norm_num)
    (by rw [AUDIO_BUFFER_SIZE])
    (by rw [List.length_replicate, FRAMES_PER_BUFFER])
    (by
      rw [isAudioAboveNoiseGateB, decide_eq_true_eq, sumSquares_replicate,
        List.length_replicate, NOISE_GATE_THRESHOLD]
      norm_num)

theorem hpfAlpha_nonneg : (0 : ℚ) ≤ hpfAlpha := by rw [hpfAlpha]; norm_num

theorem hpfAlpha_pos : (0 : ℚ) < hpfAlpha := by rw [hpfAlpha]; norm_num

theorem hpfAlpha_le_one : hpfAlpha ≤ 1 := by rw [hpfAlpha]; norm_num

theorem applyHighPassFilter_cons (x : ℤ) (xs : List ℤ) (prevIn prevOut : ℚ) :
    applyHighPassFilter (x :: xs) prevIn prevOut =
      (toShort (hpfAlpha * (prevOut + (x : ℚ) - prevIn)) ::
          (applyHighPassFilter xs (x : ℚ)
            (hpfAlpha * (prevOut + (x : ℚ) - prevIn))).1,
        (applyHighPassFilter xs (x : ℚ)
          (hpfAlpha * (prevOut + (x : ℚ) - prevIn))).2) := rfl

theorem toShort_of_nonneg (q : ℚ) (h0 : 0 ≤ q) (h1 : q ≤ 32767) :
    toShort q = ⌊q⌋ := by
  have hmin : min (32767 : ℚ) q = q := min_eq_right h1
  have hmax : max (-32768 : ℚ) q = q := max_eq_right (le_trans (by norm_num) h0)
  simp [toShort, clampQ, truncToInt, hmin, hmax, h0]

/-- Closed form of the filter on a constant block equal to the previous
input: the unclamped outputs are `alpha^(i+1) * prevOut`. -/
theorem hpfConstGeneral (m : ℕ) (po : ℚ) :
    applyHighPassFilter (List.replicate m (1000 : ℤ)) 1000 po =
      ((List.range m).map (fun i => toShort (hpfAlpha ^ (i + 1) * po)),
        (1000 : ℚ), hpfAlpha ^ m * po) := by
  induction m generalizing po with
  | zero => simp [applyHighPassFilter]
  | succ m ih =>
    rw [List.replicate_succ, applyHighPassFilter_cons]
    have hc : ((1000 : ℤ) : ℚ) = 1000 := by norm_num
    rw [hc]
    have hy : hpfAlpha * (po + (1000 : ℚ) - 1000) = hpfAlpha * po := by ring
    rw [hy, ih (hpfAlpha * po)]
    refine congrArg₂ Prod.mk ?_ (congrArg₂ Prod.mk rfl ?_)
    · rw [List.range_succ_eq_map, List.map_cons, List.map_map]
      refine congrArg₂ List.cons (by rw [pow_one]) ?_
      apply List.map_congr_left
      intro a _
      simp only [Function.comp_apply, Nat.succ_eq_add_one]
      refine congrArg toShort ?_
      ring
    · ring

/-- Partial geometric sums of `alpha^(i+1) * po` are bounded by
`(alpha / (1 - alpha)) * po = 19 * po`. -/
theorem list_geom_sum_le (m : ℕ) (po : ℚ) (hpo : 0 ≤ po) :
    ((List.range m).map (fun i => hpfAlpha ^ (i + 1) * po)).sum ≤ 19 * po := by
  induction m generalizing po with
  | zero =>
    simp only [List.range_zero, List.map_nil, List.sum_nil]
    nlinarith [hpo]
  | succ m ih =>
    rw [List.range_succ_eq_map, List.map_cons, List.sum_cons, List.map_map]
    have hmap : (List.range m).map ((fun i => hpfAlpha ^ (i + 1) * po) ∘ Nat.succ) =
        (List.range m).map (fun i => hpfAlpha ^ (i + 1) * (hpfAlpha * po)) := by
      apply List.map_congr_left
      intro a _
      simp only [Function.comp_apply, Nat.succ_eq_add_one, pow_succ]
      ring
    rw [hmap]
    have hpo' : (0 : ℚ) ≤ hpfAlpha * po := mul_nonneg hpfAlpha_nonneg hpo
    have htail := ih (hpfAlpha * po) hpo'
    have hsum : hpfAlpha ^ (0 + 1) * po + 19 * (hpfAlpha * po) = 19 * po := by
      rw [hpfAlpha]; ring
    linarith

/-- The first constant-1000 block from the fresh state `(0, 0)`: the first
unclamped output is `950`, the rest decay geometrically, and the final
state is `(1000, 0.95^511 * 950)`. -/
theorem hpf_block1 :
    applyHighPassFilter (List.replicate 512 (1000 : ℤ)) 0 0 =
      (toShort 950 ::
          (List.range 511).map (fun i => toShort (hpfAlpha ^ (i + 1) * 950)),
        (1000 : ℚ), hpfAlpha ^ 511 * 950) := by
  rw [show (512 : ℕ) = 511 + 1 from rfl, List.replicate_succ,
    applyHighPassFilter_cons]
  have hc : ((1000 : ℤ) : ℚ) = 1000 := by norm_num
  rw [hc]
  have hy : hpfAlpha * (0 + (1000 : ℚ) - 0) = 950 := by
    rw [hpfAlpha]; norm_num
  rw [hy, hpfConstGeneral 511 950]

theorem applyAGC_replicate_zero (n : ℕ) (g : ℚ) :
    applyAGC (List.replicate n 0) g = (List.replicate n 0, g) := by
  have hlev : agcLevel (List.replicate n 0) = 0 := by
    rw [agcLevel, List.map_replicate]
    simp
  rw [applyAGC, hlev]
  simp

/-- When the smoothing step lands at or above the upper clamp, the stored
gain is exactly `AGC_MAX_GAIN`. -/
theorem applyAGC_saturates (xs : List ℤ) (g : ℚ) (hpos : 0 < agcLevel xs)
    (hbig : AGC_MAX_GAIN ≤
      g + (AGC_TARGET_LEVEL / agcLevel xs - g) * AGC_ADJUSTMENT_RATE) :
    (applyAGC xs g).2 = AGC_MAX_GAIN := by
  rw [applyAGC, if_pos hpos]
  show max AGC_MIN_GAIN (min AGC_MAX_GAIN _) = AGC_MAX_GAIN
  rw [min_eq_left hbig,
    max_eq_right (by norm_num [AGC_MIN_GAIN, AGC_MAX_GAIN])]

/-- AGC on the first filtered constant-1000 block: the level is in
`(0, 19000/512]`, the desired gain exceeds the clamp, and the stored gain
is `10`. -/
theorem block1_gain :
    (applyAGC (toShort 950 ::
      (List.range 511).map (fun i => toShort (hpfAlpha ^ (i + 1) * 950)))
      1).2 = 10 := by
  have ht950 : toShort (950 : ℚ) = 950 := by
    rw [toShort_of_nonneg _ (by norm_num) (by norm_num),
      show ((950 : ℚ)) = ((950 : ℤ) : ℚ) by norm_num, Int.floor_intCast]
  have helem0 : ∀ i : ℕ, (0 : ℚ) ≤ hpfAlpha ^ (i + 1) * 950 :=
    fun i => mul_nonneg (pow_nonneg hpfAlpha_nonneg _) (by norm_num)
  have helem1 : ∀ i : ℕ, hpfAlpha ^ (i + 1) * 950 ≤ 950 := by
    intro i
    calc hpfAlpha ^ (i + 1) * 950 ≤ 1 * 950 :=
          mul_le_mul_of_nonneg_right
            (pow_le_one₀ hpfAlpha_nonneg hpfAlpha_le_one) (by norm_num)
      _ = 950 := one_mul _
  have habs : ∀ i : ℕ,
      ((|toShort (hpfAlpha ^ (i + 1) * 950)| : ℤ) : ℚ) ≤
        hpfAlpha ^ (i + 1) * 950 := by
    intro i
    rw [toShort_of_nonneg _ (helem0 i) (le_trans (helem1 i) (by norm_num)),
      abs_of_nonneg (Int.floor_nonneg.mpr (helem0 i))]
    exact Int.floor_le _
  have hmapabs : ((toShort 950 ::
      (List.range 511).map (fun i => toShort (hpfAlpha ^ (i + 1) * 950))).map
        (fun x : ℤ => |x|)) =
      (950 : ℤ) :: (List.range 511).map
        (fun i => |toShort (hpfAlpha ^ (i + 1) * 950)|) := by
    rw [List.map_cons, ht950, List.map_map]
    norm_num [Function.comp_def]
  have htail_nonneg : (0 : ℤ) ≤ ((List.range 511).map
      (fun i => |toShort (hpfAlpha ^ (i + 1) * 950)|)).sum := by
    apply List.sum_nonneg
    intro y hy
    rcases List.mem_map.mp hy with ⟨i, _, rfl⟩
    exact abs_nonneg _
  have hS_lower : (950 : ℤ) ≤ ((toShort 950 ::
      (List.range 511).map (fun i => toShort (hpfAlpha ^ (i + 1) * 950))).map
        (fun x : ℤ => |x|)).sum := by
    rw [hmapabs, List.sum_cons]
    linarith
  have hS_upper : (((toShort 950 ::
      (List.range 511).map (fun i => toShort (hpfAlpha ^ (i + 1) * 950))).map
        (fun x : ℤ => |x|)).sum : ℚ) ≤ 19000 := by
    rw [hmapabs, List.sum_cons]
    push_cast
    rw [List.map_map]
    have hle : (((List.range 511).map
        ((fun z : ℤ => (z : ℚ)) ∘ (fun i => |toShort (hpfAlpha ^ (i + 1) * 950)|))).sum ≤
        ((List.range 511).map (fun i => hpfAlpha ^ (i + 1) * (950 : ℚ))).sum) := by
      apply List.sum_le_sum
      intro i _
      simpa [Function.comp_def] using habs i
    have hgeom := list_geom_sum_le 511 950 (by norm_num)
    linarith
  have hlen : (toShort 950 ::
      (List.range 511).map (fun i => toShort (hpfAlpha ^ (i + 1) * 950))).length =
      512 := by
    simp
  have hlev_pos : 0 < agcLevel (toShort 950 ::
      (List.range 511).map (fun i => toShort (hpfAlpha ^ (i + 1) * 950))) := by
    rw [agcLevel, hlen]
    apply div_pos
    · exact_mod_cast lt_of_lt_of_le (by norm_num) hS_lower
    · norm_num
  have hlev_le : agcLevel (toShort 950 ::
      (List.range 511).map (fun i => toShort (hpfAlpha ^ (i + 1) * 950))) ≤
      19000 / 512 := by
    rw [agcLevel, hlen]
    have hc512 : ((512 : ℕ) : ℚ) = 512 := by norm_num
    rw [hc512, div_le_div_iff₀ (by norm_num : (0 : ℚ) < 512)
      (by norm_num : (0 : ℚ) < 512)]
    linarith [hS_upper]
  apply applyAGC_saturates _ _ hlev_pos
  rw [AGC_MAX_GAIN, AGC_TARGET_LEVEL, AGC_ADJUSTMENT_RATE]
  have hd : (91 : ℚ) ≤ 8000 / agcLevel (toShort 950 ::
      (List.range 511).map (fun i => toShort (hpfAlpha ^ (i + 1) * 950))) := by
    rw [le_div_iff₀ hlev_pos]
    linarith [hlev_le]
  linarith [hd]

/-- The residual filter output after the first constant block is strictly
between `0` and `1`. -/
theorem eps_bounds :
    0 < hpfAlpha ^ 511 * (950 : ℚ) ∧ hpfAlpha ^ 511 * (950 : ℚ) < 1 := by
  refine ⟨mul_pos (pow_pos hpfAlpha_pos _) (by norm_num), ?_⟩
  have h14 : hpfAlpha ^ 14 < 1/2 := by rw [hpfAlpha]; norm_num
  have h140 : hpfAlpha ^ 140 < (1/1024 : ℚ) := by
    have hmul : hpfAlpha ^ 140 = (hpfAlpha ^ 14) ^ 10 := by rw [← pow_mul]
    rw [hmul]
    calc (hpfAlpha ^ 14) ^ 10 < (1/2 : ℚ) ^ 10 :=
          pow_lt_pow_left₀ h14 (pow_nonneg hpfAlpha_nonneg _) (by norm_num)
      _ = 1/1024 := by norm_num
  have h511 : hpfAlpha ^ 511 ≤ hpfAlpha ^ 140 :=
    pow_le_pow_of_le_one hpfAlpha_nonneg hpfAlpha_le_one (by norm_num)
  nlinarith [h511, h140]

/-- The block delivered on every invocation in the C4 scenario: 512
samples of constant amplitude 1000. -/
def constBlock : List ℤ := List.replicate FRAMES_PER_BUFFER 1000

/-- The session's initial state: zero filter state, gain `1.0`, fresh
circular buffer of capacity 8192, empty partial-result cache. -/
def pipelineInit : PipelineState :=
  PipelineState.mk 0 0 g_current_gain_init
    (CircularBuffer.mk (List.replicate AUDIO_BUFFER_SIZE 0) 0 0 0
      AUDIO_BUFFER_SIZE) ""

/-- The state after `k` callback invocations, all fed `constBlock`. -/
def feedConst : ℕ → PipelineState
  | 0 => pipelineInit
  | k + 1 => (stepCallback (feedConst k) constBlock RecOut.err).1

theorem gateB_constBlock : isAudioAboveNoiseGateB constBlock = true := by
  rw [constBlock, isAudioAboveNoiseGateB, decide_eq_true_eq,
    sumSquares_replicate, List.length_replicate, NOISE_GATE_THRESHOLD,
    FRAMES_PER_BUFFER]
  norm_num

/-- On a gate-passing block the new persistent state is exactly
filter-state, clamped gain, pushed buffer and updated cache. -/
theorem stepCallback_fst (s : PipelineState) (xs : List ℤ) (r : RecOut)
    (hg : isAudioAboveNoiseGateB xs = true) :
    (stepCallback s xs r).1 = PipelineState.mk
      (applyHighPassFilter xs s.prevInput s.prevOutput).2.1
      (applyHighPassFilter xs s.prevInput s.prevOutput).2.2
      (applyAGC (applyHighPassFilter xs s.prevInput s.prevOutput).1 s.gain).2
      (s.buf.push
        (applyAGC (applyHighPassFilter xs s.prevInput s.prevOutput).1 s.gain).1)
      (updateCache s.lastResultJson r) := by
  rw [stepCallback, hg]
  simp only [if_true]

theorem feedConst_one_state :
    (feedConst 1).gain = 10 ∧ (feedConst 1).prevInput = 1000 ∧
      (feedConst 1).prevOutput = hpfAlpha ^ 511 * 950 := by
  have h1 : feedConst 1 = (stepCallback pipelineInit constBlock RecOut.err).1 :=
    rfl
  have hblock : constBlock = List.replicate 512 (1000 : ℤ) := by
    rw [constBlock, FRAMES_PER_BUFFER]
  rw [h1, stepCallback_fst _ _ _ gateB_constBlock]
  dsimp only [pipelineInit]
  rw [hblock, hpf_block1, g_current_gain_init]
  dsimp only
  exact ⟨block1_gain, rfl, rfl⟩

/-- From a state with `prevInput = 1000` and a small positive residual,
one more constant block leaves the gain unchanged (the filtered block is
all zeros) and keeps the residual in `(0, 1)`. -/
theorem step_const_keeps (s : PipelineState) (hpi : s.prevInput = 1000)
    (hpo0 : 0 < s.prevOutput) (hpo1 : s.prevOutput < 1) :
    (stepCallback s constBlock RecOut.err).1.gain = s.gain ∧
      (stepCallback s constBlock RecOut.err).1.prevInput = 1000 ∧
      0 < (stepCallback s constBlock RecOut.err).1.prevOutput ∧
      (stepCallback s constBlock RecOut.err).1.prevOutput < 1 := by
  have hblock : constBlock = List.replicate 512 (1000 : ℤ) := by
    rw [constBlock, FRAMES_PER_BUFFER]
  have houts : (List.range 512).map
      (fun i => toShort (hpfAlpha ^ (i + 1) * s.prevOutput)) =
      List.replicate 512 (0 : ℤ) := by
    have hmem : ∀ i ∈ List.range 512,
        toShort (hpfAlpha ^ (i + 1) * s.prevOutput) = (fun _ => (0 : ℤ)) i := by
      intro i _
      apply toShort_of_unit
      · exact mul_nonneg (pow_nonneg hpfAlpha_nonneg _) (le_of_lt hpo0)
      · calc hpfAlpha ^ (i + 1) * s.prevOutput ≤ 1 * s.prevOutput :=
            mul_le_mul_of_nonneg_right
              (pow_le_one₀ hpfAlpha_nonneg hpfAlpha_le_one) (le_of_lt hpo0)
          _ = s.prevOutput := one_mul _
          _ < 1 := hpo1
    rw [List.map_congr_left hmem, List.map_const', List.length_range]
  rw [stepCallback_fst _ _ _ gateB_constBlock, hblock, hpi,
    hpfConstGeneral 512 s.prevOutput]
  dsimp only
  rw [houts, applyAGC_replicate_zero]
  refine ⟨rfl, rfl, ?_, ?_⟩
  · exact mul_pos (pow_pos hpfAlpha_pos _) hpo0
  · calc hpfAlpha ^ 512 * s.prevOutput ≤ 1 * s.prevOutput :=
        mul_le_mul_of_nonneg_right
          (pow_le_one₀ hpfAlpha_nonneg hpfAlpha_le_one) (le_of_lt hpo0)
      _ = s.prevOutput := one_mul _
      _ < 1 := hpo1

/-- Claim C4 (amended): feeding the full per-block pipeline the same
constant-amplitude-1000 block repeatedly does not drive the gain toward
`8.0`.  The high-pass filter removes the DC content before the AGC
measures the level, so the first block's filtered level is far below 1000,
the desired gain overshoots the clamp, and from the first block on the
shared gain sits at the upper bound `10.0`; every later block filters to
all zeros (level 0), leaving the gain at `10.0` forever. -/
theorem C4_gain_saturates_at_max (k : ℕ) (hk : 1 ≤ k) :
    (feedConst k).gain = 10 := by
  have hstep : ∀ j : ℕ, (feedConst (j + 1)).gain = 10 ∧
      (feedConst (j + 1)).prevInput = 1000 ∧
      0 < (feedConst (j + 1)).prevOutput ∧
      (feedConst (j + 1)).prevOutput < 1 := by
    intro j
    induction j with
    | zero =>
      obtain ⟨hg, hpi, hpo⟩ := feedConst_one_state
      exact ⟨hg, hpi, by rw [hpo]; exact eps_bounds.1,
        by rw [hpo]; exact eps_bounds.2⟩
    | succ j ih =>
      obtain ⟨hg, hpi, hpo0, hpo1⟩ := ih
      have h := step_const_keeps (feedConst (j + 1)) hpi hpo0 hpo1
      have hfeed : feedConst (j + 1 + 1) =
          (stepCallback (feedConst (j + 1)) constBlock RecOut.err).1 := rfl
      rw [hfeed]
      exact ⟨by rw [h.1, hg], h.2.1, h.2.2.1, h.2.2.2⟩
  obtain ⟨m, rfl⟩ : ∃ m, k = m + 1 := ⟨k - 1, by omega⟩
  exact (hstep m).1

/-- Claim C4, counterexample to the claim as stated: the gain starts at
`1.0` and after a single constant-1000 block it is already `10.0`, above
`8.0` — it does not approach `8.0` monotonically and does not converge to
`8.0`. -/
theorem C4_counterexample :
    (feedConst 0).gain = 1 ∧ (feedConst 1).gain = 10 ∧
      ¬ ((feedConst 1).gain ≤ 8) := by
  have h1 := feedConst_one_state.1
  refine ⟨rfl, h1, ?_⟩
  rw [h1]
  norm_num

/-- Witness for the amended C4 at `k = 2`. -/
theorem C4_gain_saturates_at_max_witness : (feedConst 2).gain = 10 :=
  C4_gain_saturates_at_max 2 (by norm_num)

end Vosk
